import Mathlib

-- Shallow embedding of the markup conversion and terminal rendering engine of
-- the captains-log journal application: the terminal renderer
-- (`render_markdown`), the outline emitter (`convert_markdown_to_org`), the
-- outline-to-markup converter (`convert_org_to_markdown`) and the width
-- wrapper (`wrap_text`).  Rust strings are modelled as lists of characters,
-- machine integers as naturals (usize subtraction saturates, as in the
-- source), and the external markdown tokenizer is modelled by the event
-- stream it hands to the renderer and the emitter, following the data model
-- of the specification.

namespace CaptainsLog

/-- Rust strings, modelled as lists of characters. -/
abbrev Str := List Char

/-- Whitespace test used by Rust `str::trim`: the Unicode `White_Space`
property — U+0009..U+000D, space, U+0085, U+00A0, U+1680, U+2000..U+200A,
the line and paragraph separators, U+202F, U+205F and U+3000. -/
def wsChar (c : Char) : Bool :=
  (decide (0x09 ≤ c.toNat) && decide (c.toNat ≤ 0x0D)) ||
  decide (c.toNat = 0x20) || decide (c.toNat = 0x85) ||
  decide (c.toNat = 0xA0) || decide (c.toNat = 0x1680) ||
  (decide (0x2000 ≤ c.toNat) && decide (c.toNat ≤ 0x200A)) ||
  decide (c.toNat = 0x2028) || decide (c.toNat = 0x2029) ||
  decide (c.toNat = 0x202F) || decide (c.toNat = 0x205F) ||
  decide (c.toNat = 0x3000)

/-- Rust `str::trim`: drop whitespace from both ends. -/
def rustTrim (s : Str) : Str :=
  ((s.dropWhile wsChar).reverse.dropWhile wsChar).reverse

/-- Drop one trailing carriage return, as Rust `str::lines` does for every
line that was terminated by a line feed. -/
def chopCR (p : Str) : Str :=
  if p.getLast? = some '\r' then p.dropLast else p

/-- Split a list at every occurrence of the separator character; always
returns at least one (possibly empty) part. -/
def splitOnChar (c : Char) : Str → List Str
  | [] => [[]]
  | a :: t =>
    match splitOnChar c t with
    | [] => [[]]
    | h :: r => if a = c then [] :: h :: r else (a :: h) :: r

/-- Rust `str::lines` on the parts produced by splitting at line feeds:
every part except the last was terminated by a line feed and has a trailing
carriage return removed; a final empty part (trailing line feed) is
dropped. -/
def linesOfParts : List Str → List Str
  | [] => []
  | [p] => if p = [] then [] else [p]
  | p :: q :: rest => chopCR p :: linesOfParts (q :: rest)

/-- Rust `str::lines`. -/
def rustLines (s : Str) : List Str :=
  linesOfParts (splitOnChar '\n' s)

/-- Rust `Vec::join` on strings. -/
def joinSep (sep : Str) : List Str → Str
  | [] => []
  | [x] => x
  | x :: y :: rest => x ++ sep ++ joinSep sep (y :: rest)

/-- Boolean test that the first argument is an initial segment of the
second (Rust `str::starts_with`). -/
def leadsWith : Str → Str → Bool
  | [], _ => true
  | _ :: _, [] => false
  | p :: ps, c :: cs => (p == c) && leadsWith ps cs

/-- Rust `str::find` for a substring pattern: index of the leftmost
occurrence. -/
def findSub (s pat : Str) : Option Nat :=
  (List.range (s.length + 1)).find? (fun i => leadsWith pat (s.drop i))

/-- Rust `str::repeat` / `"  ".repeat(n)`. -/
def repeatStr (s : Str) (n : Nat) : Str :=
  (List.replicate n s).flatten

-- ---------------------------------------------------------------------------
-- Width Wrapper (`wrap_text` in src/cli/formatting.rs).  The line splitting
-- and rejoining is translated from the source; the per-line wrapping core is
-- delegated by the source to the external `textwrap` crate and is
-- modelled from the spec: greedy wrapping to a target column count,
-- line by line, with words longer than the width force-broken.
-- ---------------------------------------------------------------------------

/-- Words of one line: split at spaces, dropping empty fragments. -/
def splitWords (l : Str) : List Str :=
  (splitOnChar ' ' l).filter (fun w => !w.isEmpty)

/-- Accumulating chunker: cut the input into pieces of at most `w`
characters (`cur` is the reversed current piece, the last argument the
remaining capacity of the current piece). -/
def chunksGo (w : Nat) : Str → Str → Nat → List Str
  | [], cur, _ => if cur = [] then [] else [cur.reverse]
  | c :: rest, cur, 0 => cur.reverse :: chunksGo w rest [c] (w - 1)
  | c :: rest, cur, k + 1 => chunksGo w rest (c :: cur) k

/-- Modelled from the spec: force-break a word that is longer than the
width into pieces of at most `w` characters (`break_words(true)` of the
external `textwrap` crate). -/
def breakChunks (w : Nat) (word : Str) : List Str :=
  chunksGo w word [] w

/-- Length of a list of words joined by single spaces. -/
def joinLen : List Str → Nat
  | [] => 0
  | [x] => x.length
  | x :: y :: rest => x.length + 1 + joinLen (y :: rest)

/-- Greedy line filling: keep adding words (plus one separating space) to
the current line while the width allows it. -/
def greedyAux (w : Nat) : List Str → Nat → List Str → List (List Str)
  | cur, _, [] => [cur]
  | cur, curLen, word :: rest =>
    if curLen + 1 + word.length ≤ w then
      greedyAux w (cur ++ [word]) (curLen + 1 + word.length) rest
    else
      cur :: greedyAux w [word] word.length rest

/-- Modelled from the spec: greedy wrapping of a word list to width `w`;
a blank line (no words) wraps to one empty output line. -/
def greedy (w : Nat) : List Str → List (List Str)
  | [] => [[]]
  | word :: rest => greedyAux w [word] word.length rest

/-- The wrapped fragments of one line: break words that are too long,
fill lines greedily, rejoin each line's words with single spaces. -/
def wrapPieces (w : Nat) (line : Str) : List Str :=
  (greedy w ((splitWords line).flatMap (breakChunks w))).map (joinSep [' '])

/-- One line of the `wrap_text` loop: an empty line stays empty, any other
line is wrapped and its fragments joined with line feeds (source:
`if line.is_empty() ... else wrap(line, &opts).join("\n")`). -/
def wrapLine (w : Nat) (line : Str) : Str :=
  if line = [] then []
  else joinSep ['\n'] (wrapPieces w line)

/-- `wrap_text` from src/cli/formatting.rs: wrap each Rust line of the text
to the given width and join the results with line feeds. -/
def wrap_text (text : Str) (width : Nat) : Str :=
  joinSep ['\n'] ((rustLines text).map (wrapLine width))

/-- The text's final Rust line (when it has one) contains at least one
non-space character — i.e. the text has no trailing blank or
whitespace-only line. -/
def lastLineHasWord (text : Str) : Bool :=
  match (rustLines text).getLast? with
  | none => true
  | some l => l.any (fun a => !(a == ' '))

-- ---------------------------------------------------------------------------
-- The tokenizer event stream (data model of the specification; produced by
-- the external pulldown-cmark parser in the source).
-- ---------------------------------------------------------------------------

/-- Block and inline tags of the tokenizer's `Start` events. -/
inductive Tag where
  | Paragraph
  | Heading (level : Nat)
  | List (ordered : Bool)
  | Item
  | BlockQuote
  | CodeBlock (lang : Option Str)
  | Emphasis
  | Strong
  | Strikethrough
  | Link (dest : Str)
deriving DecidableEq

/-- Tags of the tokenizer's `End` events (payloads are ignored by both
consumers in the source, `TagEnd::Heading(_)` etc.). -/
inductive TagEnd where
  | Paragraph
  | Heading
  | List
  | Item
  | BlockQuote
  | CodeBlock
  | Emphasis
  | Strong
  | Strikethrough
  | Link
deriving DecidableEq

/-- The end tag matching a start tag. -/
def endOf : Tag → TagEnd
  | .Paragraph => .Paragraph
  | .Heading _ => .Heading
  | .List _ => .List
  | .Item => .Item
  | .BlockQuote => .BlockQuote
  | .CodeBlock _ => .CodeBlock
  | .Emphasis => .Emphasis
  | .Strong => .Strong
  | .Strikethrough => .Strikethrough
  | .Link _ => .Link

/-- Tokenizer events. -/
inductive Event where
  | Start (t : Tag)
  | End (t : TagEnd)
  | Text (s : Str)
  | Code (s : Str)
  | SoftBreak
  | HardBreak
deriving DecidableEq

/-- Events that neither open nor close a tag. -/
def flatEv : Event → Bool
  | .Start _ => false
  | .End _ => false
  | _ => true

/-- Well-formed event sequences: every `Start` has a matching later `End`,
properly nested (the tokenizer's guarantee assumed by the spec). -/
inductive Balanced : List Event → Prop where
  | nil : Balanced []
  | flat (e : Event) (rest : List Event) :
      flatEv e = true → Balanced rest → Balanced (e :: rest)
  | nest (t : Tag) (inner rest : List Event) :
      Balanced inner → Balanced rest →
      Balanced (.Start t :: inner ++ .End (endOf t) :: rest)

-- ---------------------------------------------------------------------------
-- Terminal Renderer (`render_markdown` in src/cli/formatting.rs).
-- ---------------------------------------------------------------------------

/-- The renderer's tracked style state plus the output accumulator. -/
structure RenderSt where
  is_italic : Bool
  is_bold : Bool
  is_strikethrough : Bool
  in_code_block : Bool
  list_depth : Nat
  in_blockquote : Bool
  acc : Str
deriving DecidableEq

/-- Initial renderer state: all flags clear, empty output. -/
def renderInit : RenderSt :=
  ⟨false, false, false, false, 0, false, []⟩

/-- ANSI SGR styling of the `colored` crate with the given code string,
e.g. code "1;94" for bright blue bold. -/
def sgrWrap (code : Str) (s : Str) : Str :=
  '\x1b' :: '[' :: code ++ 'm' :: s ++ ['\x1b', '[', '0', 'm']

/-- Plain-text styling by the three inline flags: with no flag set the
`colored` crate emits the text verbatim, otherwise the corresponding SGR
codes (bold 1, italic 3, strikethrough 9). -/
def styleText (bold italic strike : Bool) (t : Str) : Str :=
  let codes :=
    (if bold then ["1".toList] else []) ++
    (if italic then ["3".toList] else []) ++
    (if strike then ["9".toList] else [])
  if codes = [] then t else sgrWrap (joinSep [';'] codes) t

/-- OSC-8 hyperlink opener, without the URL (`"\x1b]8;;"`). -/
def OSC8_LINK_OPEN : Str := '\x1b' :: "]8;;".toList

/-- String terminator `ESC \`. -/
def ST_TERM : Str := ['\x1b', '\\']

/-- OSC-8 hyperlink close sequence (`"\x1b]8;;\x1b\\"`). -/
def OSC8_LINK_END : Str := '\x1b' :: "]8;;".toList ++ ['\x1b', '\\']

/-- `hyperlink_start` from src/cli/formatting.rs. -/
def hyperlink_start (url : Str) : Str :=
  OSC8_LINK_OPEN ++ url ++ ST_TERM

/-- `hyperlink_end` from src/cli/formatting.rs. -/
def hyperlink_end : Str := OSC8_LINK_END

/-- Markdown heading marker emitted by the renderer for a heading level
(`"# "` through `"###### "`). -/
def mdHeadingMark (level : Nat) : Str :=
  List.replicate level '#' ++ [' ']

/-- One event step of `render_markdown`: mirrors the `match event` in
src/cli/formatting.rs. -/
def renderStep (st : RenderSt) (e : Event) : RenderSt :=
  match e with
  | .Start .Emphasis => { st with is_italic := true }
  | .Start .Strong => { st with is_bold := true }
  | .Start .Strikethrough => { st with is_strikethrough := true }
  | .Start (.Heading level) =>
      { st with acc := st.acc ++ sgrWrap ("1;94".toList) (mdHeadingMark level) }
  | .Start (.List _) =>
      { st with list_depth := st.list_depth + 1, acc := st.acc ++ ['\n'] }
  | .Start .Item =>
      { st with acc := st.acc ++
          sgrWrap ("93".toList) (repeatStr ("  ".toList) (st.list_depth - 1) ++ "• ".toList) }
  | .Start .BlockQuote => { st with in_blockquote := true }
  | .Start (.CodeBlock _) =>
      { st with
        in_code_block := true,
        acc := st.acc ++ sgrWrap ("92".toList) ("```".toList) ++ ['\n'] }
  | .Start (.Link dest) =>
      { st with acc := st.acc ++ '[' :: hyperlink_start dest }
  | .Start .Paragraph => st
  | .End .Paragraph =>
      if st.in_blockquote then { st with acc := st.acc ++ ['\n'] }
      else { st with acc := st.acc ++ "\n\n".toList }
  | .End .Emphasis => { st with is_italic := false }
  | .End .Strong => { st with is_bold := false }
  | .End .Strikethrough => { st with is_strikethrough := false }
  | .End .Heading => { st with acc := st.acc ++ "\n\n".toList }
  | .End .List =>
      { st with list_depth := st.list_depth - 1, acc := st.acc ++ ['\n'] }
  | .End .Item => { st with acc := st.acc ++ ['\n'] }
  | .End .BlockQuote =>
      { st with in_blockquote := false, acc := st.acc ++ ['\n'] }
  | .End .CodeBlock =>
      { st with
        in_code_block := false,
        acc := st.acc ++ sgrWrap ("92".toList) ("```".toList) ++ "\n\n".toList }
  | .End .Link => { st with acc := st.acc ++ hyperlink_end ++ [']'] }
  | .Text s =>
      let t :=
        if st.in_code_block then sgrWrap ("92".toList) s
        else if st.in_blockquote then
          joinSep ['\n']
            ((rustLines s).map (fun line => sgrWrap ("90".toList) ("│ ".toList ++ line)))
        else styleText st.is_bold st.is_italic st.is_strikethrough s
      { st with acc := st.acc ++ t }
  | .Code s => { st with acc := st.acc ++ sgrWrap ("92".toList) ('`' :: s ++ ['`']) }
  | .SoftBreak =>
      if st.in_blockquote then { st with acc := st.acc ++ ['\n'] }
      else { st with acc := st.acc ++ [' '] }
  | .HardBreak => { st with acc := st.acc ++ ['\n'] }

/-- `render_markdown` from src/cli/formatting.rs, over the tokenizer's
event stream. -/
def render_markdown (events : List Event) : Str :=
  (events.foldl renderStep renderInit).acc

/-- Evolution of the renderer's bold flag alone. -/
def updBold (b : Bool) : Event → Bool
  | .Start .Strong => true
  | .End .Strong => false
  | _ => b

/-- Evolution of the renderer's italic flag alone. -/
def updItalic (b : Bool) : Event → Bool
  | .Start .Emphasis => true
  | .End .Emphasis => false
  | _ => b

/-- Evolution of the renderer's strikethrough flag alone. -/
def updStrike (b : Bool) : Event → Bool
  | .Start .Strikethrough => true
  | .End .Strikethrough => false
  | _ => b

/-- Evolution of the renderer's code-block flag alone. -/
def updCode (b : Bool) : Event → Bool
  | .Start (.CodeBlock _) => true
  | .End .CodeBlock => false
  | _ => b

/-- Evolution of the renderer's block-quote flag alone. -/
def updQuote (b : Bool) : Event → Bool
  | .Start .BlockQuote => true
  | .End .BlockQuote => false
  | _ => b

/-- Evolution of the renderer's list depth alone (the decrement saturates
at zero, as `usize::saturating_sub` does). -/
def updDepth (d : Nat) : Event → Nat
  | .Start (.List _) => d + 1
  | .End .List => d - 1
  | _ => d

-- ---------------------------------------------------------------------------
-- Outline Emitter (`convert_markdown_to_org` in src/export/mod.rs).
-- ---------------------------------------------------------------------------

/-- The emitter's tracked state plus the output accumulator. -/
structure OrgSt where
  list_depth : Nat
  in_blockquote : Bool
  acc : Str
deriving DecidableEq

/-- One event step of `convert_markdown_to_org`: mirrors the `match event`
in src/export/mod.rs. -/
def orgEventStep (base_level : Nat) (st : OrgSt) (e : Event) : OrgSt :=
  match e with
  | .Start .Emphasis => { st with acc := st.acc ++ ['/'] }
  | .Start .Strong => { st with acc := st.acc ++ ['*'] }
  | .Start .Strikethrough => { st with acc := st.acc ++ ['+'] }
  | .Start (.Heading level) =>
      { st with acc := st.acc ++ List.replicate (level + base_level) '*' ++ [' '] }
  | .Start (.List _) =>
      { st with list_depth := st.list_depth + 1, acc := st.acc ++ ['\n'] }
  | .Start .Item =>
      { st with acc := st.acc ++ repeatStr ("  ".toList) (st.list_depth - 1) ++ "• ".toList }
  | .Start .BlockQuote =>
      { st with in_blockquote := true, acc := st.acc ++ "#+BEGIN_QUOTE \n".toList }
  | .Start (.CodeBlock lang) =>
      { st with acc := st.acc ++ "#+BEGIN_SRC ".toList ++
          (match lang with | some l => l | none => []) ++ ['\n'] }
  | .Start (.Link dest) =>
      { st with acc := st.acc ++ "[[".toList ++ dest ++ "][".toList }
  | .Start .Paragraph => st
  | .End .Paragraph =>
      if st.in_blockquote then { st with acc := st.acc ++ ['\n'] }
      else { st with acc := st.acc ++ "\n\n".toList }
  | .End .Emphasis => { st with acc := st.acc ++ ['/'] }
  | .End .Strong => { st with acc := st.acc ++ ['*'] }
  | .End .Strikethrough => { st with acc := st.acc ++ ['+'] }
  | .End .Heading => { st with acc := st.acc ++ "\n\n".toList }
  | .End .List =>
      { st with list_depth := st.list_depth - 1, acc := st.acc ++ ['\n'] }
  | .End .Item => { st with acc := st.acc ++ ['\n'] }
  | .End .BlockQuote => { st with acc := st.acc ++ "#+END_QUOTE\n\n".toList }
  | .End .CodeBlock => { st with acc := st.acc ++ "#+END_SRC\n\n".toList }
  | .End .Link => { st with acc := st.acc ++ "]]".toList }
  | .Text s => { st with acc := st.acc ++ s }
  | .Code s => { st with acc := st.acc ++ '~' :: s ++ ['~'] }
  | .SoftBreak =>
      if st.in_blockquote then { st with acc := st.acc ++ ['\n'] }
      else { st with acc := st.acc ++ [' '] }
  | .HardBreak => { st with acc := st.acc ++ ['\n'] }

/-- `convert_markdown_to_org` from src/export/mod.rs, over the tokenizer's
event stream. -/
def convert_markdown_to_org (events : List Event) (base_level : Nat) : Str :=
  (events.foldl (orgEventStep base_level) ⟨0, false, []⟩).acc

/-- Modelled from the spec: the external tokenizer's event stream for the
markup input `**Bold**` — a paragraph containing one strong span with the
text run `Bold` (the documented round-trip literal of the spec). -/
def boldTokens : List Event :=
  [.Start .Paragraph, .Start .Strong, .Text ("Bold".toList),
   .End .Strong, .End .Paragraph]

-- ---------------------------------------------------------------------------
-- Outline-to-Markup Converter (`convert_org_to_markdown`,
-- `convert_delimiter` and `convert_org_links` in src/import/mod.rs).
-- ---------------------------------------------------------------------------

/-- Character loop of `convert_delimiter`: both the opening and the closing
occurrence of the delimiter push the target character; only the toggle flag
differs between the two branches. -/
def convert_delimiter_go (from_delim to_delim : Char) : Bool → Str → Str
  | _, [] => []
  | in_delimiter, c :: rest =>
    if c = from_delim then
      if in_delimiter then to_delim :: convert_delimiter_go from_delim to_delim false rest
      else to_delim :: convert_delimiter_go from_delim to_delim true rest
    else c :: convert_delimiter_go from_delim to_delim in_delimiter rest

/-- `convert_delimiter` from src/import/mod.rs. -/
def convert_delimiter (text : Str) (from_delim to_delim : Char) : Str :=
  convert_delimiter_go from_delim to_delim false text

/-- Replacement of every occurrence of one character by another — the
behaviour the claim ascribes to `convert_delimiter`. -/
def replaceAll (text : Str) (f t : Char) : Str :=
  text.map (fun c => if c = f then t else c)

/-- `convert_org_links` from src/import/mod.rs: repeatedly locate the
first `[[url][text]]` quadruple and rewrite it to `[text](url)`; when the
`][` or the closing `]]` is missing, stop and return the remaining text
unchanged.  Each rewrite shortens the string by two characters, which
bounds the loop. -/
def convert_org_links (text : Str) : Str :=
  match h1 : findSub text ("[[".toList) with
  | none => text
  | some start =>
    match h2 : findSub (text.drop start) ("][".toList) with
    | none => text
    | some middle =>
      match h3 : findSub (text.drop (start + middle)) ("]]".toList) with
      | none => text
      | some e =>
        let url := (text.drop (start + 2)).take (middle - 2)
        let ltext := (text.drop (start + middle + 2)).take (e - 2)
        convert_org_links
          ((text.take start) ++ "[".toList ++ ltext ++ "](".toList ++ url ++
            ")".toList ++ text.drop (start + middle + e + 2))
termination_by text.length
decreasing_by
  have lw2 : ∀ (a b : Char) (p : Str), leadsWith [a, b] p = true → ∃ r, p = a :: b :: r := by
    intro a b p hp
    cases p with
    | nil => simp [leadsWith] at hp
    | cons c q =>
      cases q with
      | nil => simp [leadsWith] at hp
      | cons d r =>
        simp [leadsWith] at hp
        exact ⟨r, by rw [hp.1, hp.2]⟩
  have w1 : leadsWith ("[[".toList) (text.drop start) = true := by
    have := List.find?_some h1
    simpa using this
  have w2 : leadsWith ("][".toList) (text.drop (start + middle)) = true := by
    have := List.find?_some h2
    simpa using this
  have w3 : leadsWith ("]]".toList) (text.drop (start + middle + e)) = true := by
    have := List.find?_some h3
    simpa [Nat.add_assoc] using this
  obtain ⟨r1, hr1⟩ := lw2 '[' '[' _ w1
  obtain ⟨r2, hr2⟩ := lw2 ']' '[' _ w2
  obtain ⟨r3, hr3⟩ := lw2 ']' ']' _ w3
  have la : text.length - start = r1.length + 2 := by
    have := congrArg List.length hr1
    simpa using this
  have lb : text.length - (start + middle) = r2.length + 2 := by
    have := congrArg List.length hr2
    simpa using this
  have lc : text.length - (start + middle + e) = r3.length + 2 := by
    have := congrArg List.length hr3
    simpa using this
  have hm2 : 2 ≤ middle := by
    have hdm : ('[' :: '[' :: r1).drop middle = ']' :: '[' :: r2 := by
      rw [← hr1, List.drop_drop]
      exact hr2
    rcases middle with _ | mm
    · simp at hdm
    rcases mm with _ | m
    · simp at hdm
    · omega
  have he2 : 2 ≤ e := by
    have hde : (']' :: '[' :: r2).drop e = ']' :: ']' :: r3 := by
      rw [← hr2, List.drop_drop]
      exact hr3
    rcases e with _ | ee
    · simp at hde
    rcases ee with _ | n
    · simp at hde
    · omega
  have k1 : ("[".toList : Str).length = 1 := rfl
  have k2 : ("](".toList : Str).length = 2 := rfl
  have k3 : (")".toList : Str).length = 1 := rfl
  simp only [List.length_append, List.length_take, List.length_drop, k1, k2, k3]
  omega

/-- The per-line delimiter substitution pipeline of
`convert_org_to_markdown`'s non-heading branch: bold doubling, then the
three delimiter conversions, then link rewriting. -/
def substPipeline (line : Str) : Str :=
  let c1 := line.flatMap (fun c => if c = '*' then ['*', '*'] else [c])
  let c2 := convert_delimiter c1 '/' '*'
  let c3 := convert_delimiter c2 '+' '~'
  let c4 := convert_delimiter c3 '~' '`'
  convert_org_links c4

/-- The converter's state: inside a source block, inside a quote block. -/
structure ConvSt where
  in_src : Bool
  in_quote : Bool
  acc : Str
deriving DecidableEq

/-- One line of `convert_org_to_markdown`'s loop: mirrors the body of
`for line in lines` in src/import/mod.rs. -/
def orgLineStep (st : ConvSt) (line : Str) : ConvSt :=
  let trimmed := rustTrim line
  if leadsWith ("#+BEGIN_SRC".toList) trimmed then
    { st with
      in_src := true,
      acc := st.acc ++ "```".toList ++ rustTrim (trimmed.drop 11) ++ ['\n'] }
  else if trimmed = "#+END_SRC".toList then
    { st with in_src := false, acc := st.acc ++ "```".toList ++ ['\n'] }
  else if leadsWith ("#+BEGIN_QUOTE".toList) trimmed then
    { st with in_quote := true, acc := st.acc ++ "> ".toList }
  else if trimmed = "#+END_QUOTE".toList then
    { st with in_quote := false, acc := st.acc ++ ['\n'] }
  else if st.in_src then
    { st with acc := st.acc ++ line ++ ['\n'] }
  else
    let converted :=
      if leadsWith ['*'] trimmed ∧ trimmed.get? 1 ≠ some '*' then
        List.replicate ((trimmed.takeWhile (fun c => c = '*')).length) '#' ++ [' '] ++
          rustTrim (trimmed.dropWhile (fun c => c = '*'))
      else substPipeline line
    let withQuote :=
      if st.in_quote ∧ rustTrim converted ≠ [] then "> ".toList ++ converted
      else converted
    { st with acc := st.acc ++ withQuote ++ ['\n'] }

/-- `convert_org_to_markdown` from src/import/mod.rs. -/
def convert_org_to_markdown (org : Str) : Str :=
  rustTrim ((rustLines org).foldl orgLineStep ⟨false, false, []⟩).acc

/-- A line whose trimmed form is one of the four structural markers of the
converter (source fence open or close, quote open or close); such lines are
intercepted even inside a source block, because the marker checks precede
the in-block passthrough. -/
def markerLine (l : Str) : Bool :=
  leadsWith ("#+BEGIN_SRC".toList) (rustTrim l) ||
  (rustTrim l == "#+END_SRC".toList) ||
  leadsWith ("#+BEGIN_QUOTE".toList) (rustTrim l) ||
  (rustTrim l == "#+END_QUOTE".toList)

-- ---------------------------------------------------------------------------
-- Theorems.
-- ---------------------------------------------------------------------------

theorem convert_delimiter_go_flag_free (f t : Char) (s : Str) :
    ∀ flag, convert_delimiter_go f t flag s = s.map (fun c => if c = f then t else c) := by
  induction s with
  | nil => intro flag; rfl
  | cons c rest ih =>
    intro flag
    cases flag <;> by_cases h : c = f <;> simp [convert_delimiter_go, h, ih]

/-- C9: for every string and every pair of characters, `convert_delimiter`
equals plain character replacement of the source delimiter by the target;
the internal `in_delimiter` toggle has no observable effect, so opening and
closing delimiters are rewritten identically and pairing is never
enforced. -/
theorem convert_delimiter_is_replacement (s : Str) (f t : Char) :
    convert_delimiter s f t = replaceAll s f t :=
  convert_delimiter_go_flag_free f t s false

/-- C2: with no style flags open, outside code blocks and block quotes, the
renderer maps `Start (Link u)`, `Text t`, `End Link` to exactly one
hyperlink-open escape sequence, the literal text, and exactly one
hyperlink-close escape sequence, surrounded by the visible brackets. -/
theorem render_link_exact (u t : Str)
    (hesc : '\x1b' ∉ u) (hbel : '\x07' ∉ u) :
    render_markdown [.Start (.Link u), .Text t, .End .Link] =
      ['['] ++ ('\x1b' :: "]8;;".toList) ++ u ++ ['\x1b', '\\'] ++ t ++
        ('\x1b' :: "]8;;".toList) ++ ['\x1b', '\\'] ++ [']'] := by
  simp [render_markdown, renderInit, renderStep, hyperlink_start, hyperlink_end,
    OSC8_LINK_OPEN, OSC8_LINK_END, ST_TERM, styleText]

/-- Witness for C2 at the spec's own example link. -/
theorem render_link_exact_witness :
    ('\x1b' ∉ ("https://x".toList : Str)) ∧ ('\x07' ∉ ("https://x".toList : Str)) ∧
    render_markdown [.Start (.Link ("https://x".toList)), .Text ("t".toList), .End .Link] =
      ['['] ++ ('\x1b' :: "]8;;".toList) ++ "https://x".toList ++ ['\x1b', '\\'] ++
        "t".toList ++ ('\x1b' :: "]8;;".toList) ++ ['\x1b', '\\'] ++ [']'] :=
  ⟨by decide, by decide, render_link_exact _ _ (by decide) (by decide)⟩

/-- C6: the outline emitter writes `level + base_level` marker characters
and one space before a heading's text. -/
theorem org_heading_marker (L b : Nat) (t : Str) (h1 : 1 ≤ L) (h2 : L ≤ 6) :
    convert_markdown_to_org [.Start (.Heading L), .Text t, .End .Heading] b =
      List.replicate (L + b) '*' ++ [' '] ++ t ++ "\n\n".toList := by
  simp [convert_markdown_to_org, orgEventStep]

/-- Witness for C6: a level-1 heading with base level 1 yields two marker
characters (and with base level 0 a single one). -/
theorem org_heading_marker_witness :
    (1 ≤ 1 ∧ 1 ≤ 6 ∧
      convert_markdown_to_org [.Start (.Heading 1), .Text ("Hi".toList), .End .Heading] 1 =
        "** Hi\n\n".toList) ∧
    convert_markdown_to_org [.Start (.Heading 1), .Text ("Hi".toList), .End .Heading] 0 =
      "* Hi\n\n".toList :=
  ⟨⟨by decide, by decide,
      (org_heading_marker 1 1 ("Hi".toList) (by decide) (by decide)).trans (by decide)⟩,
    by decide⟩

/-- C1: the outline emitter does map the tokenized `**Bold**` to `*Bold*`
(up to trailing newlines), but the outline-to-markup converter does not map
the single outline line `*Bold*` back to `**Bold**`: the heading detector
fires on it (leading `*` not followed by a second `*`) and the converter
emits `# Bold*` instead — contradicting the repository's own unit test,
which expects `**Bold**`. -/
theorem bold_roundtrip_code_behaviour :
    convert_markdown_to_org boldTokens 0 = "*Bold*\n\n".toList ∧
    rustTrim (convert_markdown_to_org boldTokens 0) = "*Bold*".toList ∧
    convert_org_to_markdown ("*Bold*".toList) = "# Bold*".toList ∧
    convert_org_to_markdown ("*Bold*".toList) ≠ "**Bold**".toList :=
  ⟨by decide, by decide, by decide, by decide⟩

/-- C5: outside code blocks, for a line that is no fence or quote marker,
the converter treats it as a heading exactly when the trimmed line starts
with the marker character and the second character is not another marker:
it then emits `#` repeated level times (level = length of the leading
marker run), a space, and the remaining text with the run stripped; any
other such line goes through delimiter substitution instead. -/
theorem org_heading_line_detection (st : ConvSt) (line : Str)
    (hsrc : st.in_src = false) (hq : st.in_quote = false)
    (h1 : leadsWith ("#+BEGIN_SRC".toList) (rustTrim line) = false)
    (h2 : rustTrim line ≠ "#+END_SRC".toList)
    (h3 : leadsWith ("#+BEGIN_QUOTE".toList) (rustTrim line) = false)
    (h4 : rustTrim line ≠ "#+END_QUOTE".toList) :
    (orgLineStep st line).acc =
      st.acc ++
        (if leadsWith ['*'] (rustTrim line) = true ∧ (rustTrim line).get? 1 ≠ some '*' then
          List.replicate (((rustTrim line).takeWhile (fun c => c = '*')).length) '#' ++ [' '] ++
            rustTrim ((rustTrim line).dropWhile (fun c => c = '*'))
        else substPipeline line) ++ ['\n'] := by
  unfold orgLineStep
  simp only [h1, h2, h3, h4, hsrc, hq, Bool.false_eq_true, if_false, false_and, ite_false]

theorem renderStep_is_bold (st : RenderSt) (e : Event) :
    (renderStep st e).is_bold = updBold st.is_bold e := by
  cases e with
  | Start t => cases t <;> rfl
  | End t =>
    cases t
    all_goals first
      | rfl
      | (simp only [renderStep]; split <;> rfl)
  | Text s => rfl
  | Code s => rfl
  | SoftBreak => simp only [renderStep]; split <;> rfl
  | HardBreak => rfl

theorem renderStep_is_italic (st : RenderSt) (e : Event) :
    (renderStep st e).is_italic = updItalic st.is_italic e := by
  cases e with
  | Start t => cases t <;> rfl
  | End t =>
    cases t
    all_goals first
      | rfl
      | (simp only [renderStep]; split <;> rfl)
  | Text s => rfl
  | Code s => rfl
  | SoftBreak => simp only [renderStep]; split <;> rfl
  | HardBreak => rfl

theorem renderStep_is_strikethrough (st : RenderSt) (e : Event) :
    (renderStep st e).is_strikethrough = updStrike st.is_strikethrough e := by
  cases e with
  | Start t => cases t <;> rfl
  | End t =>
    cases t
    all_goals first
      | rfl
      | (simp only [renderStep]; split <;> rfl)
  | Text s => rfl
  | Code s => rfl
  | SoftBreak => simp only [renderStep]; split <;> rfl
  | HardBreak => rfl

theorem renderStep_in_code_block (st : RenderSt) (e : Event) :
    (renderStep st e).in_code_block = updCode st.in_code_block e := by
  cases e with
  | Start t => cases t <;> rfl
  | End t =>
    cases t
    all_goals first
      | rfl
      | (simp only [renderStep]; split <;> rfl)
  | Text s => rfl
  | Code s => rfl
  | SoftBreak => simp only [renderStep]; split <;> rfl
  | HardBreak => rfl

theorem renderStep_in_blockquote (st : RenderSt) (e : Event) :
    (renderStep st e).in_blockquote = updQuote st.in_blockquote e := by
  cases e with
  | Start t => cases t <;> rfl
  | End t =>
    cases t
    all_goals first
      | rfl
      | (simp only [renderStep]; split <;> rfl)
  | Text s => rfl
  | Code s => rfl
  | SoftBreak => simp only [renderStep]; split <;> rfl
  | HardBreak => rfl

theorem renderStep_list_depth (st : RenderSt) (e : Event) :
    (renderStep st e).list_depth = updDepth st.list_depth e := by
  cases e with
  | Start t => cases t <;> rfl
  | End t =>
    cases t
    all_goals first
      | rfl
      | (simp only [renderStep]; split <;> rfl)
  | Text s => rfl
  | Code s => rfl
  | SoftBreak => simp only [renderStep]; split <;> rfl
  | HardBreak => rfl

theorem foldl_render_proj {α : Type} (proj : RenderSt → α) (upd : α → Event → α)
    (hstep : ∀ st e, proj (renderStep st e) = upd (proj st) e) :
    ∀ (evs : List Event) (st : RenderSt),
      proj (evs.foldl renderStep st) = evs.foldl upd (proj st) := by
  intro evs
  induction evs with
  | nil => intro st; rfl
  | cons e rest ih =>
    intro st
    simp only [List.foldl_cons]
    rw [ih, hstep]

theorem balanced_foldl_flag (upd : Bool → Event → Bool)
    (hflat : ∀ (b : Bool) (e : Event), flatEv e = true → upd b e = b)
    (htag : ∀ t : Tag, (∀ b, upd b (.End (endOf t)) = false) ∨
      ((∀ b, upd b (.Start t) = b) ∧ ∀ b, upd b (.End (endOf t)) = b)) :
    ∀ evs : List Event, Balanced evs → evs.foldl upd false = false := by
  intro evs h
  induction h with
  | nil => rfl
  | flat e rest hfe _ ih =>
    simp only [List.foldl_cons]
    rw [hflat false e hfe]
    exact ih
  | nest t inner rest _ _ ih1 ih2 =>
    have hsplit : List.foldl upd false (.Start t :: inner ++ .End (endOf t) :: rest) =
        List.foldl upd
          (upd (List.foldl upd (upd false (.Start t)) inner) (.End (endOf t))) rest := by
      simp [List.foldl_append]
    rw [hsplit]
    rcases htag t with hclr | ⟨hs, he⟩
    · rw [hclr]
      exact ih2
    · rw [hs, ih1, he]
      exact ih2

theorem balanced_foldl_depth :
    ∀ evs : List Event, Balanced evs → ∀ d : Nat, evs.foldl updDepth d = d := by
  intro evs h
  induction h with
  | nil => intro d; rfl
  | flat e rest hfe _ ih =>
    intro d
    have hstep : updDepth d e = d := by
      cases e <;> first | rfl | simp [flatEv] at hfe
    simp only [List.foldl_cons]
    rw [hstep]
    exact ih d
  | nest t inner rest _ _ ih1 ih2 =>
    intro d
    have hsplit : List.foldl updDepth d (.Start t :: inner ++ .End (endOf t) :: rest) =
        List.foldl updDepth
          (updDepth (List.foldl updDepth (updDepth d (.Start t)) inner) (.End (endOf t))) rest := by
      simp [List.foldl_append]
    rw [hsplit, ih1]
    have hcycle : updDepth (updDepth d (.Start t)) (.End (endOf t)) = d := by
      cases t <;> simp [updDepth, endOf]
    rw [hcycle]
    exact ih2 d

/-- C4: over any well-formed (properly bracketed) event sequence the
renderer's final style state has all booleans cleared and list depth zero;
and on any sequence at all the list depth never becomes negative, the
decrement being saturated at zero. -/
theorem render_state_restored (evs : List Event) (h : Balanced evs) :
    ((evs.foldl renderStep renderInit).is_bold = false ∧
     (evs.foldl renderStep renderInit).is_italic = false ∧
     (evs.foldl renderStep renderInit).is_strikethrough = false ∧
     (evs.foldl renderStep renderInit).in_code_block = false ∧
     (evs.foldl renderStep renderInit).in_blockquote = false ∧
     (evs.foldl renderStep renderInit).list_depth = 0) ∧
    ∀ (l : List Event) (st : RenderSt), 0 ≤ (l.foldl renderStep st).list_depth := by
  refine ⟨⟨?_, ?_, ?_, ?_, ?_, ?_⟩, fun l st => Nat.zero_le _⟩
  · rw [foldl_render_proj (fun s => s.is_bold) updBold renderStep_is_bold evs renderInit]
    exact balanced_foldl_flag updBold
      (by intro b e hfe; cases e <;> first | rfl | simp [flatEv] at hfe)
      (by intro t; cases t <;> first
        | exact Or.inl (fun b => rfl)
        | exact Or.inr ⟨fun b => rfl, fun b => rfl⟩)
      evs h
  · rw [foldl_render_proj (fun s => s.is_italic) updItalic renderStep_is_italic evs renderInit]
    exact balanced_foldl_flag updItalic
      (by intro b e hfe; cases e <;> first | rfl | simp [flatEv] at hfe)
      (by intro t; cases t <;> first
        | exact Or.inl (fun b => rfl)
        | exact Or.inr ⟨fun b => rfl, fun b => rfl⟩)
      evs h
  · rw [foldl_render_proj (fun s => s.is_strikethrough) updStrike
      renderStep_is_strikethrough evs renderInit]
    exact balanced_foldl_flag updStrike
      (by intro b e hfe; cases e <;> first | rfl | simp [flatEv] at hfe)
      (by intro t; cases t <;> first
        | exact Or.inl (fun b => rfl)
        | exact Or.inr ⟨fun b => rfl, fun b => rfl⟩)
      evs h
  · rw [foldl_render_proj (fun s => s.in_code_block) updCode
      renderStep_in_code_block evs renderInit]
    exact balanced_foldl_flag updCode
      (by intro b e hfe; cases e <;> first | rfl | simp [flatEv] at hfe)
      (by intro t; cases t <;> first
        | exact Or.inl (fun b => rfl)
        | exact Or.inr ⟨fun b => rfl, fun b => rfl⟩)
      evs h
  · rw [foldl_render_proj (fun s => s.in_blockquote) updQuote
      renderStep_in_blockquote evs renderInit]
    exact balanced_foldl_flag updQuote
      (by intro b e hfe; cases e <;> first | rfl | simp [flatEv] at hfe)
      (by intro t; cases t <;> first
        | exact Or.inl (fun b => rfl)
        | exact Or.inr ⟨fun b => rfl, fun b => rfl⟩)
      evs h
  · rw [foldl_render_proj (fun s => s.list_depth) updDepth renderStep_list_depth evs renderInit]
    exact balanced_foldl_depth evs h 0

/-- Witness for C4 at a small balanced sequence containing a strong span
inside a paragraph. -/
theorem render_state_restored_witness :
    (([.Start .Paragraph, .Start .Strong, .Text ("x".toList), .End .Strong,
        .End .Paragraph] : List Event).foldl renderStep renderInit).is_bold = false ∧
    (([.Start .Paragraph, .Start .Strong, .Text ("x".toList), .End .Strong,
        .End .Paragraph] : List Event).foldl renderStep renderInit).list_depth = 0 := by
  have hb : Balanced [.Start .Paragraph, .Start .Strong, .Text ("x".toList), .End .Strong,
      .End .Paragraph] := by
    have inner : Balanced [.Start .Strong, .Text ("x".toList), .End .Strong] := by
      have t : Balanced [Event.Text ("x".toList)] := .flat _ _ rfl .nil
      exact .nest .Strong [.Text ("x".toList)] [] t .nil
    exact .nest .Paragraph [.Start .Strong, .Text ("x".toList), .End .Strong] [] inner .nil
  have h := render_state_restored _ hb
  exact ⟨h.1.1, h.1.2.2.2.2.2⟩

/-- Witness for C5: the line `* Hi` becomes the markdown heading `# Hi`
(the heading condition holds: the leading run of markers has length one). -/
theorem org_heading_line_detection_witness :
    (orgLineStep ⟨false, false, []⟩ ("* Hi".toList)).acc = "# Hi\n".toList :=
  (org_heading_line_detection ⟨false, false, []⟩ ("* Hi".toList) rfl rfl
      (by decide) (by decide) (by decide) (by decide)).trans (by decide)

/-- C7: `convert_org_links` (a total function, defined by recursion on the
strictly decreasing string length, so it terminates on every input) stops
as soon as a found `[[` is not followed by `][`, or the `][` is not
followed by a closing `]]`, returning the remaining text unchanged. -/
theorem convert_org_links_stops (text : Str) (start : Nat)
    (h1 : findSub text ("[[".toList) = some start)
    (h2 : findSub (text.drop start) ("][".toList) = none ∨
      ∃ m, findSub (text.drop start) ("][".toList) = some m ∧
        findSub (text.drop (start + m)) ("]]".toList) = none) :
    convert_org_links text = text := by
  unfold convert_org_links
  split
  · rfl
  next start' heq1 =>
    split
    · rfl
    next middle' heq2 =>
      split
      · rfl
      next e' heq3 =>
        rw [h1] at heq1
        injection heq1 with hst
        subst hst
        rcases h2 with hnone | ⟨m, hm, hnone⟩
        · rw [hnone] at heq2
          exact absurd heq2 (by simp)
        · rw [hm] at heq2
          injection heq2 with hmm
          subst hmm
          rw [hnone] at heq3
          exact absurd heq3 (by simp)

/-- Witness for C7: in `ab[[cd` the `[[` at index 2 has no following `][`,
and the text is returned unchanged. -/
theorem convert_org_links_stops_witness :
    findSub ("ab[[cd".toList) ("[[".toList) = some 2 ∧
    findSub (("ab[[cd".toList).drop 2) ("][".toList) = none ∧
    convert_org_links ("ab[[cd".toList) = "ab[[cd".toList :=
  ⟨by decide, by decide, convert_org_links_stops _ 2 (by decide) (Or.inl (by decide))⟩

theorem splitOnChar_ne_nil (c : Char) : ∀ l : Str, splitOnChar c l ≠ [] := by
  intro l
  induction l with
  | nil => simp [splitOnChar]
  | cons a t ih =>
    unfold splitOnChar
    cases h : splitOnChar c t with
    | nil => simp
    | cons p r => by_cases hac : a = c <;> simp [hac]

theorem splitOnChar_no_sep (c : Char) : ∀ l : Str, c ∉ l → splitOnChar c l = [l] := by
  intro l
  induction l with
  | nil => intro _; rfl
  | cons a t ih =>
    intro h
    have hac : ¬ a = c := by
      intro he
      exact h (by simp [he])
    have ht : c ∉ t := fun hc => h (List.mem_cons_of_mem a hc)
    unfold splitOnChar
    rw [ih ht]
    simp [hac]

theorem splitOnChar_sep_append (c : Char) :
    ∀ (p rest : Str), c ∉ p → splitOnChar c (p ++ c :: rest) = p :: splitOnChar c rest := by
  intro p
  induction p with
  | nil =>
    intro rest _
    show splitOnChar c (c :: rest) = [] :: splitOnChar c rest
    conv_lhs => rw [splitOnChar]
    cases h : splitOnChar c rest with
    | nil => exact absurd h (splitOnChar_ne_nil c rest)
    | cons q r => simp
  | cons a p' ih =>
    intro rest h
    have hac : ¬ a = c := by
      intro he
      exact h (by simp [he])
    have hp : c ∉ p' := fun hc => h (List.mem_cons_of_mem a hc)
    show splitOnChar c (a :: (p' ++ c :: rest)) = (a :: p') :: splitOnChar c rest
    conv_lhs => rw [splitOnChar]
    rw [ih rest hp]
    simp [hac]

theorem splitOnChar_joinSep (c : Char) :
    ∀ P : List Str, P ≠ [] → (∀ p ∈ P, c ∉ p) → splitOnChar c (joinSep [c] P) = P := by
  intro P
  induction P with
  | nil => intro h; exact absurd rfl h
  | cons p rest ih =>
    intro _ hall
    cases rest with
    | nil =>
      simp only [joinSep]
      exact splitOnChar_no_sep c p (hall p (by simp))
    | cons q r =>
      simp only [joinSep]
      rw [List.append_assoc, List.singleton_append,
        splitOnChar_sep_append c p _ (hall p (by simp)),
        ih (by simp) (fun x hx => hall x (by simp [hx]))]

theorem linesOfParts_id :
    ∀ P : List Str, (∀ p ∈ P, p.getLast? ≠ some '\r') → P.getLast? ≠ some [] →
      linesOfParts P = P := by
  intro P
  induction P with
  | nil => intro _ _; rfl
  | cons p rest ih =>
    intro hcr hlast
    cases rest with
    | nil =>
      have hp : ¬ p = [] := by
        intro he
        exact hlast (by simp [he])
      simp [linesOfParts, hp]
    | cons q r =>
      simp only [linesOfParts]
      have h1 : chopCR p = p := by
        unfold chopCR
        rw [if_neg (hcr p (by simp))]
      rw [h1, ih (fun x hx => hcr x (by simp [hx])) (by simpa using hlast)]

theorem rustLines_joinSep (P : List Str) (hne : P ≠ [])
    (hnl : ∀ p ∈ P, '\n' ∉ p) (hcr : ∀ p ∈ P, p.getLast? ≠ some '\r')
    (hlast : P.getLast? ≠ some []) :
    rustLines (joinSep ['\n'] P) = P := by
  unfold rustLines
  rw [splitOnChar_joinSep '\n' P hne hnl, linesOfParts_id P hcr hlast]

theorem rustTrim_sandwich (a b : Char) (m : Str)
    (ha : wsChar a = false) (hb : wsChar b = false) :
    rustTrim (a :: (m ++ [b, '\n'])) = a :: (m ++ [b]) := by
  unfold rustTrim
  have hn : wsChar '\n' = true := rfl
  have h1 : List.dropWhile wsChar (a :: (m ++ [b, '\n'])) = a :: (m ++ [b, '\n']):= by
    rw [List.dropWhile_cons, ha]
    simp
  rw [h1]
  have h2 : (a :: (m ++ [b, '\n'])).reverse = '\n' :: b :: (m.reverse ++ [a]) := by
    simp
  rw [h2]
  have h3 : List.dropWhile wsChar ('\n' :: b :: (m.reverse ++ [a])) =
      b :: (m.reverse ++ [a]) := by
    rw [List.dropWhile_cons, hn]
    simp only [if_true]
    rw [List.dropWhile_cons, hb]
    simp
  rw [h3]
  simp

theorem orgLineStep_in_src (st : ConvSt) (l : Str)
    (hs : st.in_src = true) (hm : markerLine l = false) :
    orgLineStep st l = { st with acc := st.acc ++ l ++ ['\n'] } := by
  simp only [markerLine, Bool.or_eq_false_iff, beq_eq_false_iff_ne] at hm
  obtain ⟨⟨⟨h1, h2⟩, h3⟩, h4⟩ := hm
  simp only [orgLineStep, h1, h2, h3, h4, hs, Bool.false_eq_true, if_false, if_true,
    ite_false, ite_true]

theorem orgLineStep_end_src (st : ConvSt) :
    orgLineStep st ("#+END_SRC".toList) =
      { st with in_src := false, acc := st.acc ++ "```".toList ++ ['\n'] } := by
  simp only [orgLineStep]
  rw [if_neg (by decide), if_pos (by decide)]

theorem foldl_in_src (content : List Str) :
    ∀ st : ConvSt, st.in_src = true → (∀ l ∈ content, markerLine l = false) →
      content.foldl orgLineStep st =
        { st with acc := st.acc ++ (content.map (fun l => l ++ ['\n'])).flatten } := by
  induction content with
  | nil =>
    intro st _ _
    cases st
    simp
  | cons l rest ih =>
    intro st hs hm
    rw [List.foldl_cons, orgLineStep_in_src st l hs (hm l (by simp))]
    rw [ih ({ st with acc := st.acc ++ l ++ ['\n'] }) hs (fun x hx => hm x (by simp [hx]))]
    cases st
    simp [List.append_assoc]

/-- C3 (amended): a `#+BEGIN_SRC rust` line, content lines none of which is
itself a fence or quote marker line, and a `#+END_SRC` line convert to a
markdown fenced block carrying the language tag, with every content line
passed through unchanged — no delimiter substitution, no heading detection,
no quote prefixing, regardless of the delimiter characters the content
contains. -/
theorem src_block_passthrough (content : List Str)
    (hline : ∀ l ∈ content,
      ('\n' ∉ l) ∧ l.getLast? ≠ some '\r' ∧ markerLine l = false) :
    convert_org_to_markdown
        (joinSep ['\n'] ("#+BEGIN_SRC rust".toList :: content ++ ["#+END_SRC".toList])) =
      "```rust\n".toList ++ (content.map (fun l => l ++ ['\n'])).flatten ++ "```".toList := by
  have hmem : ∀ p ∈ ("#+BEGIN_SRC rust".toList :: content ++ ["#+END_SRC".toList]),
      p = "#+BEGIN_SRC rust".toList ∨ p ∈ content ∨ p = "#+END_SRC".toList := by
    intro p hp
    rcases List.mem_cons.mp hp with h | h
    · exact Or.inl h
    rcases List.mem_append.mp h with h | h
    · exact Or.inr (Or.inl h)
    · exact Or.inr (Or.inr (by simpa using h))
  have hlines : rustLines
      (joinSep ['\n'] ("#+BEGIN_SRC rust".toList :: content ++ ["#+END_SRC".toList])) =
      "#+BEGIN_SRC rust".toList :: content ++ ["#+END_SRC".toList] := by
    apply rustLines_joinSep
    · simp
    · intro p hp
      rcases hmem p hp with h | h | h
      · rw [h]; decide
      · exact (hline p h).1
      · rw [h]; decide
    · intro p hp
      rcases hmem p hp with h | h | h
      · rw [h]; decide
      · exact (hline p h).2.1
      · rw [h]; decide
    · have : (("#+BEGIN_SRC rust".toList :: content ++ ["#+END_SRC".toList]) : List Str).getLast?
          = some ("#+END_SRC".toList) := by
        show ((("#+BEGIN_SRC rust".toList :: content) ++ ["#+END_SRC".toList]) : List Str).getLast?
          = some ("#+END_SRC".toList)
        rw [List.getLast?_concat]
      rw [this]
      simp
  unfold convert_org_to_markdown
  rw [hlines]
  have hfirst : orgLineStep ⟨false, false, []⟩ ("#+BEGIN_SRC rust".toList) =
      ⟨true, false, "```rust\n".toList⟩ := by decide
  rw [show ("#+BEGIN_SRC rust".toList :: content ++ ["#+END_SRC".toList] : List Str) =
      "#+BEGIN_SRC rust".toList :: (content ++ ["#+END_SRC".toList]) from rfl,
    List.foldl_cons, hfirst, List.foldl_append,
    foldl_in_src content _ rfl (fun l hl => (hline l hl).2.2),
    List.foldl_cons, List.foldl_nil, orgLineStep_end_src]
  have harg : (("```rust\n".toList ++ (content.map (fun l => l ++ ['\n'])).flatten) ++
        "```".toList ++ ['\n'] : Str) =
      '`' :: (("``rust\n".toList ++ (content.map (fun l => l ++ ['\n'])).flatten ++
        "``".toList) ++ ['`', '\n']) := by
    simp only [List.append_assoc]
    rfl
  show rustTrim (("```rust\n".toList ++ (content.map (fun l => l ++ ['\n'])).flatten) ++
      "```".toList ++ ['\n']) = _
  rw [harg, rustTrim_sandwich '`' '`' _ rfl rfl]
  simp only [List.append_assoc]
  rfl

/-- C3 counterexample: with the content line `#+END_SRC` itself, the claim
as stated fails — that line terminates the block early instead of passing
through, so the converted text is three fences, not a fenced block whose
body is the literal line. -/
theorem src_block_passthrough_cx :
    convert_org_to_markdown ("#+BEGIN_SRC rust\n#+END_SRC\n#+END_SRC".toList) =
      "```rust\n```\n```".toList ∧
    convert_org_to_markdown ("#+BEGIN_SRC rust\n#+END_SRC\n#+END_SRC".toList) ≠
      "```rust\n#+END_SRC\n```".toList :=
  ⟨by decide, by decide⟩

/-- Witness for C3 (amended) on a content line full of delimiter
characters. -/
theorem src_block_passthrough_witness :
    convert_org_to_markdown ("#+BEGIN_SRC rust\nlet x = [1, /2/ + *3*];\n#+END_SRC".toList) =
      "```rust\nlet x = [1, /2/ + *3*];\n```".toList := by
  have h := src_block_passthrough [("let x = [1, /2/ + *3*];".toList)]
    (by intro l hl; simp at hl; subst hl; exact ⟨by decide, by decide, by decide⟩)
  exact h.trans (by decide)

theorem splitOnChar_append_last (c : Char) :
    ∀ l : Str, splitOnChar c (l ++ [c]) = splitOnChar c l ++ [[]] := by
  intro l
  induction l with
  | nil =>
    show splitOnChar c [c] = splitOnChar c [] ++ [[]]
    conv_lhs => rw [splitOnChar]
    simp [splitOnChar]
  | cons a t ih =>
    show splitOnChar c (a :: (t ++ [c])) = splitOnChar c (a :: t) ++ [[]]
    conv_lhs => rw [splitOnChar]
    conv_rhs => rw [splitOnChar]
    rw [ih]
    cases h : splitOnChar c t with
    | nil => exact absurd h (splitOnChar_ne_nil c t)
    | cons p r => by_cases hac : a = c <;> simp [hac]

theorem linesOfParts_char :
    ∀ P : List Str, linesOfParts P =
      P.dropLast.map chopCR ++ (match P.getLast? with
        | none => []
        | some t => if t = [] then [] else [t]) := by
  intro P
  induction P with
  | nil => rfl
  | cons p rest ih =>
    cases rest with
    | nil => simp [linesOfParts]
    | cons q r =>
      simp only [linesOfParts]
      rw [ih]
      simp [List.getLast?_cons_cons]

theorem rustLines_append_nl (l : Str) :
    rustLines (l ++ ['\n']) = (splitOnChar '\n' l).map chopCR := by
  unfold rustLines
  rw [splitOnChar_append_last, linesOfParts_char]
  simp [List.dropLast_concat, List.getLast?_concat]

theorem splitOnChar_getLast (c : Char) :
    ∀ l : Str, l ≠ [] → ∀ d : Char, l.getLast? = some d → d ≠ c →
      ∃ t, (splitOnChar c l).getLast? = some t ∧ t ≠ [] ∧ t.getLast? = some d := by
  intro l
  induction l with
  | nil => intro h; exact absurd rfl h
  | cons a t ih =>
    intro _ d hd hdc
    cases t with
    | nil =>
      simp at hd
      subst hd
      refine ⟨[a], ?_, by simp, by simp⟩
      conv_lhs => rw [splitOnChar]
      simp [splitOnChar, hdc]
    | cons b t' =>
      rw [List.getLast?_cons_cons] at hd
      obtain ⟨t0, h1, h2, h3⟩ := ih (by simp) d hd hdc
      cases hsp : splitOnChar c (b :: t') with
      | nil => exact absurd hsp (splitOnChar_ne_nil c _)
      | cons p r =>
        rw [hsp] at h1
        have hunf : splitOnChar c (a :: b :: t') =
            if a = c then [] :: p :: r else (a :: p) :: r := by
          conv_lhs => rw [splitOnChar]
          rw [hsp]
        rw [hunf]
        by_cases hac : a = c
        · rw [if_pos hac]
          exact ⟨t0, by simpa [List.getLast?_cons_cons] using h1, h2, h3⟩
        · rw [if_neg hac]
          cases r with
          | nil =>
            simp at h1
            subst h1
            refine ⟨a :: p, by simp, by simp, ?_⟩
            cases p with
            | nil => exact absurd rfl h2
            | cons x xs => simpa [List.getLast?_cons_cons] using h3
          | cons y ys =>
            refine ⟨t0, ?_, h2, h3⟩
            simpa [List.getLast?_cons_cons] using h1

theorem rustLines_stable_append_nl (l : Str) (hl : l ≠ [])
    (hn : l.getLast? ≠ some '\n') (hr : l.getLast? ≠ some '\r') :
    rustLines (l ++ ['\n']) = rustLines l := by
  obtain ⟨d, hd⟩ : ∃ d, l.getLast? = some d := by
    cases h : l.getLast? with
    | none => exact absurd (List.getLast?_eq_none_iff.mp h) hl
    | some d => exact ⟨d, rfl⟩
  have hdn : d ≠ '\n' := fun he => hn (he ▸ hd)
  have hdr : d ≠ '\r' := fun he => hr (he ▸ hd)
  obtain ⟨t0, h1, h2, h3⟩ := splitOnChar_getLast '\n' l hl d hd hdn
  rw [rustLines_append_nl]
  unfold rustLines
  rw [linesOfParts_char, h1]
  simp only [h2, ite_false, if_false]
  have hne : splitOnChar '\n' l ≠ [] := splitOnChar_ne_nil _ _
  have hg : (splitOnChar '\n' l).getLast hne = t0 := by
    have hgl := List.getLast?_eq_getLast (splitOnChar '\n' l) hne
    rw [h1] at hgl
    exact (Option.some.inj hgl).symm
  have hdec := List.dropLast_append_getLast hne
  rw [hg] at hdec
  conv_lhs => rw [← hdec]
  rw [List.map_append]
  have hch : chopCR t0 = t0 := by
    unfold chopCR
    rw [if_neg]
    rw [h3]
    simp [hdr]
  simp [hch]

/-- C10 (amended): the width wrapper drops a single trailing line break —
for every width and every text whose last character is neither a line feed
nor a carriage return, wrapping `text ++ "\n"` gives the same output as
wrapping `text`, so the output for newline-terminated input is not
newline-terminated.  (A text ending in a carriage return is the exception:
there the appended line feed also absorbs the `\r`.) -/
theorem wrap_text_trailing_newline (text : Str) (w : Nat)
    (hn : text.getLast? ≠ some '\n') (hr : text.getLast? ≠ some '\r') :
    wrap_text (text ++ ['\n']) w = wrap_text text w := by
  by_cases h : text = []
  · subst h
    rfl
  · unfold wrap_text
    rw [rustLines_stable_append_nl text h hn hr]

/-- C10 counterexample: the text `a\r` does not end with a line feed, yet
appending one changes the wrapper's output — the `\r` is eaten as part of
the `\r\n` line ending. -/
theorem wrap_text_trailing_newline_cx :
    ("a\r".toList : Str).getLast? ≠ some '\n' ∧
    wrap_text ("a\r".toList ++ ['\n']) 80 ≠ wrap_text ("a\r".toList) 80 :=
  ⟨by decide, by decide⟩

/-- Witness for C10 (amended) at a small text and width. -/
theorem wrap_text_trailing_newline_witness :
    wrap_text ("ab cd".toList ++ ['\n']) 3 = wrap_text ("ab cd".toList) 3 :=
  wrap_text_trailing_newline ("ab cd".toList) 3 (by decide) (by decide)

theorem not_mem_splitOnChar (c : Char) :
    ∀ (l p : Str), p ∈ splitOnChar c l → c ∉ p := by
  intro l
  induction l with
  | nil =>
    intro p hp
    simp [splitOnChar] at hp
    subst hp
    simp
  | cons a t ih =>
    intro p hp
    cases h : splitOnChar c t with
    | nil => exact absurd h (splitOnChar_ne_nil c t)
    | cons q r =>
      have hunf : splitOnChar c (a :: t) = if a = c then [] :: q :: r else (a :: q) :: r := by
        conv_lhs => rw [splitOnChar]
        rw [h]
      rw [hunf] at hp
      by_cases hac : a = c
      · rw [if_pos hac] at hp
        rcases List.mem_cons.mp hp with h1 | h1
        · subst h1; simp
        · exact ih p (by rw [h]; exact h1)
      · rw [if_neg hac] at hp
        rcases List.mem_cons.mp hp with h1 | h1
        · subst h1
          intro hcm
          rcases List.mem_cons.mp hcm with h2 | h2
          · exact hac h2.symm
          · exact ih q (by rw [h]; simp) h2
        · exact ih p (by rw [h]; simp [h1])

theorem mem_of_splitOnChar (c : Char) :
    ∀ (l p : Str), p ∈ splitOnChar c l → ∀ a ∈ p, a ∈ l := by
  intro l
  induction l with
  | nil =>
    intro p hp a ha
    simp [splitOnChar] at hp
    subst hp
    simp at ha
  | cons b t ih =>
    intro p hp a ha
    cases h : splitOnChar c t with
    | nil => exact absurd h (splitOnChar_ne_nil c t)
    | cons q r =>
      have hunf : splitOnChar c (b :: t) = if b = c then [] :: q :: r else (b :: q) :: r := by
        conv_lhs => rw [splitOnChar]
        rw [h]
      rw [hunf] at hp
      by_cases hbc : b = c
      · rw [if_pos hbc] at hp
        rcases List.mem_cons.mp hp with h1 | h1
        · subst h1; simp at ha
        · exact List.mem_cons_of_mem b (ih p (by rw [h]; exact h1) a ha)
      · rw [if_neg hbc] at hp
        rcases List.mem_cons.mp hp with h1 | h1
        · subst h1
          rcases List.mem_cons.mp ha with h2 | h2
          · simp [h2]
          · exact List.mem_cons_of_mem b (ih q (by rw [h]; simp) a h2)
        · exact List.mem_cons_of_mem b (ih p (by rw [h]; simp [h1]) a ha)

theorem chopCR_sublist_mem (p : Str) : ∀ a ∈ chopCR p, a ∈ p := by
  intro a ha
  unfold chopCR at ha
  split at ha
  · exact List.dropLast_subset p ha
  · exact ha

theorem linesOfParts_mem :
    ∀ (P : List Str) (l : Str), l ∈ linesOfParts P → ∃ p ∈ P, l = p ∨ l = chopCR p := by
  intro P
  induction P with
  | nil => intro l hl; simp [linesOfParts] at hl
  | cons p rest ih =>
    intro l hl
    cases rest with
    | nil =>
      simp only [linesOfParts] at hl
      split at hl
      · simp at hl
      · simp at hl
        exact ⟨p, by simp, Or.inl hl⟩
    | cons q r =>
      simp only [linesOfParts] at hl
      rcases List.mem_cons.mp hl with h1 | h1
      · exact ⟨p, by simp, Or.inr h1⟩
      · obtain ⟨p', hp', h2⟩ := ih l h1
        exact ⟨p', by simp [hp'], h2⟩

theorem rustLines_facts (s : Str) : ∀ l ∈ rustLines s, ('\n' ∉ l) ∧ ∀ a ∈ l, a ∈ s := by
  intro l hl
  unfold rustLines at hl
  obtain ⟨p, hp, hcase⟩ := linesOfParts_mem _ l hl
  have hnl : '\n' ∉ p := not_mem_splitOnChar '\n' s p hp
  have hsub : ∀ a ∈ p, a ∈ s := mem_of_splitOnChar '\n' s p hp
  rcases hcase with h | h <;> subst h
  · exact ⟨hnl, hsub⟩
  · exact ⟨fun hc => hnl (chopCR_sublist_mem p _ hc),
      fun a ha => hsub a (chopCR_sublist_mem p a ha)⟩

theorem joinSep_append (s : Str) :
    ∀ (A B : List Str), A ≠ [] → B ≠ [] →
      joinSep s (A ++ B) = joinSep s A ++ s ++ joinSep s B := by
  intro A
  induction A with
  | nil => intro B h; exact absurd rfl h
  | cons x A' ih =>
    intro B _ hB
    cases A' with
    | nil =>
      cases B with
      | nil => exact absurd rfl hB
      | cons y r => simp [joinSep]
    | cons x2 A'' =>
      have h1 : joinSep s ((x :: x2 :: A'') ++ B) =
          x ++ s ++ joinSep s ((x2 :: A'') ++ B) := by
        simp [joinSep]
      rw [h1, ih B (by simp) hB]
      simp [joinSep, List.append_assoc]

theorem joinSep_flatten (s : Str) :
    ∀ xss : List (List Str), (∀ xs ∈ xss, xs ≠ []) →
      joinSep s (xss.map (joinSep s)) = joinSep s xss.flatten := by
  intro xss
  induction xss with
  | nil => intro _; rfl
  | cons b bs ih =>
    intro hall
    cases bs with
    | nil => simp [joinSep]
    | cons b2 bs2 =>
      have hfl : ((b2 :: bs2) : List (List Str)).flatten ≠ [] := by
        intro he
        simp only [List.flatten_cons] at he
        exact hall b2 (by simp) (List.append_eq_nil.mp he).1
      have h1 : joinSep s ((b :: b2 :: bs2).map (joinSep s)) =
          joinSep s b ++ s ++ joinSep s ((b2 :: bs2).map (joinSep s)) := by
        simp [joinSep]
      rw [h1, ih (fun xs hxs => hall xs (by simp [hxs]))]
      have h2 : ((b :: b2 :: bs2) : List (List Str)).flatten = b ++ (b2 :: bs2).flatten := by
        simp
      rw [h2, joinSep_append s b ((b2 :: bs2) : List (List Str)).flatten
        (hall b (by simp)) hfl]

theorem mem_joinSep (s : Str) :
    ∀ (ws : List Str) (a : Char), a ∈ joinSep s ws → a ∈ s ∨ ∃ x ∈ ws, a ∈ x := by
  intro ws
  induction ws with
  | nil => intro a ha; simp [joinSep] at ha
  | cons x rest ih =>
    intro a ha
    cases rest with
    | nil => exact Or.inr ⟨x, by simp, ha⟩
    | cons y r =>
      simp only [joinSep] at ha
      rcases List.mem_append.mp ha with h1 | h1
      · rcases List.mem_append.mp h1 with h2 | h2
        · exact Or.inr ⟨x, by simp, h2⟩
        · exact Or.inl h2
      · rcases ih a h1 with h2 | ⟨z, hz, h3⟩
        · exact Or.inl h2
        · exact Or.inr ⟨z, by simp [hz], h3⟩

theorem joinSep_cons_ne_nil (s : Str) (x : Str) (rest : List Str) (hx : x ≠ []) :
    joinSep s (x :: rest) ≠ [] := by
  cases rest with
  | nil => exact hx
  | cons y r =>
    simp only [joinSep]
    intro he
    exact hx (List.append_eq_nil.mp ((List.append_eq_nil.mp he).1)).1

theorem splitWords_facts (l : Str) :
    ∀ x ∈ splitWords l, x ≠ [] ∧ ' ' ∉ x ∧ ∀ a ∈ x, a ∈ l := by
  intro x hx
  unfold splitWords at hx
  rw [List.mem_filter] at hx
  obtain ⟨hmem, hne⟩ := hx
  exact ⟨by simpa using hne, not_mem_splitOnChar ' ' l x hmem,
    mem_of_splitOnChar ' ' l x hmem⟩

theorem splitWords_joinSep (ws : List Str) (hne : ws ≠ [])
    (hall : ∀ x ∈ ws, x ≠ [] ∧ ' ' ∉ x) :
    splitWords (joinSep [' '] ws) = ws := by
  unfold splitWords
  rw [splitOnChar_joinSep ' ' ws hne (fun p hp => (hall p hp).2)]
  apply List.filter_eq_self.mpr
  intro x hx
  simpa using (hall x hx).1

theorem splitWords_ne_nil : ∀ l : Str, (∃ a ∈ l, a ≠ ' ') → splitWords l ≠ [] := by
  intro l
  induction l with
  | nil => rintro ⟨a, ha, _⟩; simp at ha
  | cons b t ih =>
    rintro ⟨a, ha, hane⟩
    by_cases hb : b = ' '
    · have heq : splitWords (b :: t) = splitWords t := by
        unfold splitWords
        cases h : splitOnChar ' ' t with
        | nil => exact absurd h (splitOnChar_ne_nil _ _)
        | cons q r =>
          have hunf : splitOnChar ' ' (b :: t) = [] :: q :: r := by
            conv_lhs => rw [splitOnChar]
            rw [h]
            simp [hb]
          rw [hunf]
          simp
      rw [heq]
      apply ih
      rcases List.mem_cons.mp ha with h1 | h1
      · exact absurd (h1.trans hb) hane
      · exact ⟨a, h1, hane⟩
    · unfold splitWords
      cases h : splitOnChar ' ' t with
      | nil => exact absurd h (splitOnChar_ne_nil _ _)
      | cons q r =>
        have hunf : splitOnChar ' ' (b :: t) = (b :: q) :: r := by
          conv_lhs => rw [splitOnChar]
          rw [h]
          simp [hb]
        rw [hunf]
        simp

theorem chunksGo_of_le (w : Nat) :
    ∀ (l cur : Str) (k : Nat), l.length ≤ k →
      chunksGo w l cur k = if cur = [] ∧ l = [] then [] else [cur.reverse ++ l] := by
  intro l
  induction l with
  | nil =>
    intro cur k _
    by_cases h : cur = [] <;> simp [chunksGo, h]
  | cons c rest ih =>
    intro cur k hk
    cases k with
    | zero => simp at hk
    | succ k' =>
      show chunksGo w rest (c :: cur) k' = _
      rw [ih (c :: cur) k' (by simpa using hk)]
      simp [List.append_assoc]

theorem breakChunks_single (w : Nat) (word : Str) (h : word.length ≤ w) :
    breakChunks w word = if word = [] then [] else [word] := by
  unfold breakChunks
  rw [chunksGo_of_le w word [] w h]
  by_cases hw : word = [] <;> simp [hw]

theorem flatMap_breakChunks_id (w : Nat) :
    ∀ ws : List Str, (∀ x ∈ ws, x ≠ [] ∧ x.length ≤ w) →
      ws.flatMap (breakChunks w) = ws := by
  intro ws
  induction ws with
  | nil => intro _; rfl
  | cons x rest ih =>
    intro hall
    simp only [List.flatMap_cons]
    rw [breakChunks_single w x (hall x (by simp)).2, if_neg (hall x (by simp)).1,
      ih (fun y hy => hall y (by simp [hy]))]
    rfl

theorem chunksGo_ne_nil (w : Nat) :
    ∀ (l cur : Str) (k : Nat), cur ≠ [] → chunksGo w l cur k ≠ [] := by
  intro l
  induction l with
  | nil => intro cur k h; simp [chunksGo, h]
  | cons c rest ih =>
    intro cur k h
    cases k with
    | zero => simp [chunksGo]
    | succ k' =>
      show chunksGo w rest (c :: cur) k' ≠ []
      exact ih (c :: cur) k' (by simp)

theorem breakChunks_ne_nil (w : Nat) (hw : 1 ≤ w) :
    ∀ word : Str, word ≠ [] → breakChunks w word ≠ [] := by
  intro word h
  cases word with
  | nil => exact absurd rfl h
  | cons c rest =>
    unfold breakChunks
    cases w with
    | zero => exact absurd hw (by omega)
    | succ w' =>
      show chunksGo (w' + 1) rest [c] w' ≠ []
      exact chunksGo_ne_nil _ rest [c] w' (by simp)

theorem chunksGo_spec (w : Nat) (hw : 1 ≤ w) :
    ∀ (l cur : Str) (k : Nat),
      k ≤ w → (cur = [] → k = w) → cur.length + k = w →
      ∀ ch ∈ chunksGo w l cur k, ch ≠ [] ∧ ch.length ≤ w ∧ ∀ a ∈ ch, a ∈ cur ∨ a ∈ l := by
  intro l
  induction l with
  | nil =>
    intro cur k hk hcw hlen ch hch
    simp only [chunksGo] at hch
    split at hch
    · simp at hch
    next hcur =>
      simp at hch
      subst hch
      refine ⟨by simpa using hcur, ?_, fun a ha => Or.inl (by simpa using ha)⟩
      rw [List.length_reverse]
      omega
  | cons c rest ih =>
    intro cur k hk hcw hlen ch hch
    cases k with
    | zero =>
      have hcur : cur ≠ [] := by
        intro he
        have := hcw he
        omega
      simp only [chunksGo] at hch
      rcases List.mem_cons.mp hch with h1 | h1
      · subst h1
        refine ⟨by simpa using hcur, ?_, fun a ha => Or.inl (by simpa using ha)⟩
        rw [List.length_reverse]
        omega
      · obtain ⟨hne, hle, hmem⟩ := ih [c] (w - 1) (by omega)
          (by intro he; exact absurd he (by simp)) (by simp; omega) ch h1
        refine ⟨hne, hle, fun a ha => ?_⟩
        rcases hmem a ha with h2 | h2
        · simp at h2
          subst h2
          exact Or.inr (by simp)
        · exact Or.inr (by simp [h2])
    | succ k' =>
      simp only [chunksGo] at hch
      obtain ⟨hne, hle, hmem⟩ := ih (c :: cur) k' (by omega)
        (by intro he; exact absurd he (by simp)) (by simp; omega) ch hch
      refine ⟨hne, hle, fun a ha => ?_⟩
      rcases hmem a ha with h2 | h2
      · rcases List.mem_cons.mp h2 with h3 | h3
        · subst h3
          exact Or.inr (by simp)
        · exact Or.inl h3
      · exact Or.inr (by simp [h2])

theorem breakChunks_spec (w : Nat) (hw : 1 ≤ w) (word : Str) :
    ∀ ch ∈ breakChunks w word, ch ≠ [] ∧ ch.length ≤ w ∧ ∀ a ∈ ch, a ∈ word := by
  intro ch hch
  obtain ⟨hne, hle, hmem⟩ := chunksGo_spec w hw word [] w (by omega) (fun _ => rfl)
    (by simp) ch hch
  refine ⟨hne, hle, fun a ha => ?_⟩
  rcases hmem a ha with h | h
  · simp at h
  · exact h

theorem joinLen_append_single :
    ∀ (ws : List Str) (x : Str), ws ≠ [] →
      joinLen (ws ++ [x]) = joinLen ws + 1 + x.length := by
  intro ws
  induction ws with
  | nil => intro x h; exact absurd rfl h
  | cons y rest ih =>
    intro x _
    cases rest with
    | nil => simp [joinLen]
    | cons z rest' =>
      have h1 : joinLen (y :: ((z :: rest') ++ [x])) =
          y.length + 1 + joinLen ((z :: rest') ++ [x]) := rfl
      rw [List.cons_append, h1, ih x (by simp)]
      have h2 : joinLen (y :: z :: rest') = y.length + 1 + joinLen (z :: rest') := rfl
      rw [h2]
      omega

theorem joinLen_append :
    ∀ (A B : List Str), A ≠ [] → B ≠ [] →
      joinLen (A ++ B) = joinLen A + 1 + joinLen B := by
  intro A
  induction A with
  | nil => intro B h; exact absurd rfl h
  | cons x A' ih =>
    intro B _ hB
    cases A' with
    | nil =>
      cases B with
      | nil => exact absurd rfl hB
      | cons y r => simp [joinLen]
    | cons x2 A'' =>
      have h1 : joinLen ((x :: x2 :: A'') ++ B) =
          x.length + 1 + joinLen ((x2 :: A'') ++ B) := rfl
      rw [h1, ih B (by simp) hB]
      have h2 : joinLen (x :: x2 :: A'') = x.length + 1 + joinLen (x2 :: A'') := rfl
      rw [h2]
      omega

theorem joinLen_cons_le (x : Str) (rest : List Str) : x.length ≤ joinLen (x :: rest) := by
  cases rest with
  | nil => simp [joinLen]
  | cons y r =>
    have h : joinLen (x :: y :: r) = x.length + 1 + joinLen (y :: r) := rfl
    omega

theorem greedyAux_single (w : Nat) :
    ∀ (rest cur : List Str) (curLen : Nat), cur ≠ [] →
      curLen = joinLen cur → joinLen (cur ++ rest) ≤ w →
      greedyAux w cur curLen rest = [cur ++ rest] := by
  intro rest
  induction rest with
  | nil => intro cur curLen _ _ _; simp [greedyAux]
  | cons word rest' ih =>
    intro cur curLen hcur hlen hle
    have hfit : curLen + 1 + word.length ≤ w := by
      have h1 : joinLen (cur ++ word :: rest') = joinLen cur + 1 + joinLen (word :: rest') :=
        joinLen_append cur (word :: rest') hcur (by simp)
      have h2 : word.length ≤ joinLen (word :: rest') := joinLen_cons_le word rest'
      omega
    simp only [greedyAux]
    rw [if_pos hfit]
    rw [ih (cur ++ [word]) (curLen + 1 + word.length) (by simp)
      (by rw [hlen, joinLen_append_single cur word hcur])
      (by simpa [List.append_assoc] using hle)]
    simp [List.append_assoc]

theorem greedy_single (w : Nat) (ws : List Str) (hne : ws ≠ []) (hle : joinLen ws ≤ w) :
    greedy w ws = [ws] := by
  cases ws with
  | nil => exact absurd rfl hne
  | cons word rest =>
    show greedyAux w [word] word.length rest = [word :: rest]
    rw [greedyAux_single w rest [word] word.length (by simp) (by simp [joinLen])
      (by simpa using hle)]
    simp

theorem greedyAux_spec (w : Nat) (Q : Str → Prop) :
    ∀ (rest cur : List Str) (curLen : Nat), cur ≠ [] → curLen = joinLen cur → curLen ≤ w →
      (∀ x ∈ cur, Q x) → (∀ x ∈ rest, Q x ∧ x.length ≤ w) →
      ∀ line ∈ greedyAux w cur curLen rest,
        line ≠ [] ∧ joinLen line ≤ w ∧ ∀ x ∈ line, Q x := by
  intro rest
  induction rest with
  | nil =>
    intro cur curLen hcur hlen hle hQ _ line hline
    simp [greedyAux] at hline
    subst hline
    exact ⟨hcur, by omega, hQ⟩
  | cons word rest' ih =>
    intro cur curLen hcur hlen hle hQ hR line hline
    simp only [greedyAux] at hline
    split at hline
    next hfit =>
      refine ih (cur ++ [word]) (curLen + 1 + word.length) (by simp)
        (by rw [hlen, joinLen_append_single cur word hcur]) (by omega)
        (fun x hx => ?_) (fun x hx => hR x (by simp [hx])) line hline
      rcases List.mem_append.mp hx with h | h
      · exact hQ x h
      · simp at h
        subst h
        exact (hR x (by simp)).1
    next hnofit =>
      rcases List.mem_cons.mp hline with h1 | h1
      · subst h1
        exact ⟨hcur, by omega, hQ⟩
      · refine ih [word] word.length (by simp) (by simp [joinLen])
          ((hR word (by simp)).2) (fun x hx => ?_)
          (fun x hx => hR x (by simp [hx])) line h1
        simp at hx
        subst hx
        exact (hR x (by simp)).1

theorem greedyAux_ne_nil (w : Nat) :
    ∀ (rest cur : List Str) (curLen : Nat), greedyAux w cur curLen rest ≠ [] := by
  intro rest
  induction rest with
  | nil => intro cur curLen; simp [greedyAux]
  | cons word rest' ih =>
    intro cur curLen
    simp only [greedyAux]
    split
    · exact ih _ _
    · simp

theorem greedy_ne_nil (w : Nat) (ws : List Str) : greedy w ws ≠ [] := by
  cases ws with
  | nil => simp [greedy]
  | cons word rest => exact greedyAux_ne_nil w rest [word] word.length

theorem mem_of_getLast?_eq {α : Type} {l : List α} {a : α} (h : l.getLast? = some a) :
    a ∈ l := by
  obtain ⟨hne, rfl⟩ := List.mem_getLast?_eq_getLast (show a ∈ l.getLast? by rw [h]; rfl)
  exact List.getLast_mem hne

theorem getLast?_map {α β : Type} (f : α → β) :
    ∀ l : List α, (l.map f).getLast? = l.getLast?.map f := by
  intro l
  induction l with
  | nil => rfl
  | cons a t ih =>
    cases t with
    | nil => rfl
    | cons b r =>
      show ((f a) :: (f b) :: r.map f).getLast? = ((a :: b :: r) : List α).getLast?.map f
      rw [List.getLast?_cons_cons, List.getLast?_cons_cons]
      exact ih

theorem flatten_getLast? :
    ∀ (bs : List (List Str)), (∀ b ∈ bs, b ≠ []) →
      ∀ bl, bs.getLast? = some bl → bs.flatten.getLast? = bl.getLast? := by
  intro bs
  induction bs with
  | nil => intro _ bl h; simp at h
  | cons b rest ih =>
    intro hall bl h
    cases rest with
    | nil =>
      simp at h
      subst h
      simp
    | cons b2 rest2 =>
      rw [List.getLast?_cons_cons] at h
      have hx := ih (fun x hx => hall x (by simp [hx])) bl h
      have hfne : ((b2 :: rest2) : List (List Str)).flatten ≠ [] := by
        intro he
        simp only [List.flatten_cons] at he
        exact hall b2 (by simp) (List.append_eq_nil.mp he).1
      rw [List.flatten_cons, List.getLast?_append_of_ne_nil b hfne]
      exact hx

theorem chunkList_facts (w : Nat) (hw : 1 ≤ w) (l : Str) :
    ∀ x ∈ (splitWords l).flatMap (breakChunks w),
      x ≠ [] ∧ ' ' ∉ x ∧ x.length ≤ w ∧ ∀ a ∈ x, a ∈ l := by
  intro x hx
  rw [List.mem_flatMap] at hx
  obtain ⟨word, hword, hxc⟩ := hx
  obtain ⟨hwne, hwsp, hwsub⟩ := splitWords_facts l word hword
  obtain ⟨hxne, hxle, hxsub⟩ := breakChunks_spec w hw word x hxc
  exact ⟨hxne, fun hs => hwsp (hxsub ' ' hs), hxle, fun a ha => hwsub a (hxsub a ha)⟩

theorem wrapLine_fixed (w : Nat) (hw : 1 ≤ w) (ws : List Str) (hne : ws ≠ [])
    (hlen : joinLen ws ≤ w)
    (hall : ∀ x ∈ ws, x ≠ [] ∧ ' ' ∉ x ∧ x.length ≤ w) :
    wrapLine w (joinSep [' '] ws) = joinSep [' '] ws := by
  obtain ⟨x, rest, rfl⟩ : ∃ x rest, ws = x :: rest := by
    cases ws with
    | nil => exact absurd rfl hne
    | cons x rest => exact ⟨x, rest, rfl⟩
  have hpne : joinSep [' '] (x :: rest) ≠ [] :=
    joinSep_cons_ne_nil [' '] x rest (hall x (by simp)).1
  unfold wrapLine
  rw [if_neg hpne]
  unfold wrapPieces
  rw [splitWords_joinSep (x :: rest) (by simp)
    (fun y hy => ⟨(hall y hy).1, (hall y hy).2.1⟩)]
  rw [flatMap_breakChunks_id w (x :: rest)
    (fun y hy => ⟨(hall y hy).1, (hall y hy).2.2⟩)]
  rw [greedy_single w (x :: rest) (by simp) hlen]
  simp [joinSep]

theorem wrapPieces_spec (w : Nat) (hw : 1 ≤ w) (l : Str)
    (hnl : '\n' ∉ l) (hcr : '\r' ∉ l) :
    ∀ p ∈ wrapPieces w l, ('\n' ∉ p) ∧ ('\r' ∉ p) ∧ wrapLine w p = p := by
  intro p hp
  unfold wrapPieces at hp
  rw [List.mem_map] at hp
  obtain ⟨line, hline, rfl⟩ := hp
  cases hch : (splitWords l).flatMap (breakChunks w) with
  | nil =>
    rw [hch] at hline
    simp [greedy] at hline
    subst hline
    exact ⟨by simp [joinSep], by simp [joinSep], rfl⟩
  | cons c0 ch0 =>
    rw [hch] at hline
    simp only [greedy] at hline
    have hc0 := chunkList_facts w hw l c0 (by rw [hch]; simp)
    have hspec := greedyAux_spec w
      (fun x => x ≠ [] ∧ ' ' ∉ x ∧ x.length ≤ w ∧ ('\n' ∉ x ∧ '\r' ∉ x))
      ch0 [c0] c0.length (by simp) (by simp [joinLen]) hc0.2.2.1
      (fun x hx => by
        simp at hx
        subst hx
        exact ⟨hc0.1, hc0.2.1, hc0.2.2.1,
          fun hn => hnl (hc0.2.2.2 '\n' hn), fun hr => hcr (hc0.2.2.2 '\r' hr)⟩)
      (fun x hx => by
        have hx' := chunkList_facts w hw l x (by rw [hch]; simp [hx])
        exact ⟨⟨hx'.1, hx'.2.1, hx'.2.2.1,
          fun hn => hnl (hx'.2.2.2 '\n' hn), fun hr => hcr (hx'.2.2.2 '\r' hr)⟩,
          hx'.2.2.1⟩)
      line hline
    obtain ⟨hlne, hllen, hlQ⟩ := hspec
    refine ⟨?_, ?_, ?_⟩
    · intro hn
      rcases mem_joinSep [' '] line '\n' hn with h | ⟨x, hx, h⟩
      · simp at h
      · exact (hlQ x hx).2.2.2.1 h
    · intro hr
      rcases mem_joinSep [' '] line '\r' hr with h | ⟨x, hx, h⟩
      · simp at h
      · exact (hlQ x hx).2.2.2.2 h
    · exact wrapLine_fixed w hw line hlne hllen
        (fun x hx => ⟨(hlQ x hx).1, (hlQ x hx).2.1, (hlQ x hx).2.2.1⟩)

theorem wrapPieces_ne_nil (w : Nat) (l : Str) : wrapPieces w l ≠ [] := by
  unfold wrapPieces
  intro he
  cases hg : greedy w ((splitWords l).flatMap (breakChunks w)) with
  | nil => exact greedy_ne_nil w _ hg
  | cons x xs =>
    rw [hg] at he
    simp at he

theorem wrapPieces_nonblank (w : Nat) (hw : 1 ≤ w) (l : Str)
    (hword : splitWords l ≠ []) : ∀ p ∈ wrapPieces w l, p ≠ [] := by
  intro p hp
  unfold wrapPieces at hp
  rw [List.mem_map] at hp
  obtain ⟨line, hline, rfl⟩ := hp
  cases hch : (splitWords l).flatMap (breakChunks w) with
  | nil =>
    exfalso
    obtain ⟨word, rest, hws⟩ : ∃ word rest, splitWords l = word :: rest := by
      cases hsw : splitWords l with
      | nil => exact absurd hsw hword
      | cons word rest => exact ⟨word, rest, rfl⟩
    rw [hws] at hch
    simp only [List.flatMap_cons] at hch
    exact breakChunks_ne_nil w hw word (splitWords_facts l word (by rw [hws]; simp)).1
      (List.append_eq_nil.mp hch).1
  | cons c0 ch0 =>
    rw [hch] at hline
    simp only [greedy] at hline
    have hc0 := chunkList_facts w hw l c0 (by rw [hch]; simp)
    have hspec := greedyAux_spec w (fun x => x ≠ [])
      ch0 [c0] c0.length (by simp) (by simp [joinLen]) hc0.2.2.1
      (fun x hx => by
        simp at hx
        subst hx
        exact hc0.1)
      (fun x hx => by
        have hx' := chunkList_facts w hw l x (by rw [hch]; simp [hx])
        exact ⟨hx'.1, hx'.2.2.1⟩)
      line hline
    obtain ⟨hlne, _, hlQ⟩ := hspec
    obtain ⟨x, lr, rfl⟩ : ∃ x lr, line = x :: lr := by
      cases line with
      | nil => exact absurd rfl hlne
      | cons x lr => exact ⟨x, lr, rfl⟩
    exact joinSep_cons_ne_nil [' '] x lr (hlQ x (by simp))

theorem wrapLine_eq_joinPieces (w : Nat) (l : Str) :
    wrapLine w l = joinSep ['\n'] (wrapPieces w l) := by
  by_cases h : l = []
  · subst h
    rfl
  · unfold wrapLine
    rw [if_neg h]

/-- C8 (amended): the width wrapper is idempotent at any width `w ≥ 1` on
every text that contains no carriage return and whose final line contains a
non-space character: re-wrapping the wrapped output reproduces it exactly,
with no double-wrapping of lines that already fit. -/
theorem wrap_text_idempotent (text : Str) (w : Nat) (hw : 1 ≤ w)
    (hcr : '\r' ∉ text) (hlast : lastLineHasWord text = true) :
    wrap_text (wrap_text text w) w = wrap_text text w := by
  by_cases hL : rustLines text = []
  · have h1 : wrap_text text w = [] := by
      unfold wrap_text
      rw [hL]
      rfl
    rw [h1]
    rfl
  · have hlf : ∀ l ∈ rustLines text, '\n' ∉ l ∧ '\r' ∉ l := by
      intro l hl
      obtain ⟨hnl, hsub⟩ := rustLines_facts text l hl
      exact ⟨hnl, fun hr => hcr (hsub '\r' hr)⟩
    set P := ((rustLines text).map (wrapPieces w)).flatten with hPdef
    have hblocks : ∀ b ∈ (rustLines text).map (wrapPieces w), b ≠ [] := by
      intro b hb
      rw [List.mem_map] at hb
      obtain ⟨l, _, rfl⟩ := hb
      exact wrapPieces_ne_nil w l
    have hout : wrap_text text w = joinSep ['\n'] P := by
      have hmcong : (rustLines text).map (wrapLine w) =
          ((rustLines text).map (wrapPieces w)).map (joinSep ['\n']) := by
        rw [List.map_map]
        exact List.map_congr_left (fun l _ => wrapLine_eq_joinPieces w l)
      unfold wrap_text
      rw [hmcong, joinSep_flatten ['\n'] _ hblocks]
    have hPmem : ∀ p ∈ P, ∃ l ∈ rustLines text, p ∈ wrapPieces w l := by
      intro p hp
      rw [hPdef, List.mem_flatten] at hp
      obtain ⟨b, hb, hpb⟩ := hp
      rw [List.mem_map] at hb
      obtain ⟨l, hl, rfl⟩ := hb
      exact ⟨l, hl, hpb⟩
    have hPfacts : ∀ p ∈ P, ('\n' ∉ p) ∧ ('\r' ∉ p) ∧ wrapLine w p = p := by
      intro p hp
      obtain ⟨l, hl, hpw⟩ := hPmem p hp
      exact wrapPieces_spec w hw l (hlf l hl).1 (hlf l hl).2 p hpw
    have hPne : P ≠ [] := by
      rw [hPdef]
      intro he
      cases hLs : rustLines text with
      | nil => exact hL hLs
      | cons l0 ls =>
        rw [hLs] at he
        simp only [List.map_cons, List.flatten_cons] at he
        exact wrapPieces_ne_nil w l0 (List.append_eq_nil.mp he).1
    have hPlast : P.getLast? ≠ some [] := by
      obtain ⟨llast, hllast⟩ : ∃ l, (rustLines text).getLast? = some l := by
        cases h : (rustLines text).getLast? with
        | none => exact absurd (List.getLast?_eq_none_iff.mp h) hL
        | some l => exact ⟨l, rfl⟩
      have hlword : splitWords llast ≠ [] := by
        apply splitWords_ne_nil
        unfold lastLineHasWord at hlast
        rw [hllast] at hlast
        rw [List.any_eq_true] at hlast
        obtain ⟨a, ha, hab⟩ := hlast
        exact ⟨a, ha, by simpa using hab⟩
      have hfl : P.getLast? = (wrapPieces w llast).getLast? := by
        rw [hPdef]
        exact flatten_getLast? _ hblocks (wrapPieces w llast)
          (by rw [getLast?_map, hllast]; rfl)
      cases hpl : (wrapPieces w llast).getLast? with
      | none =>
        rw [hfl, hpl]
        simp
      | some pl =>
        rw [hfl, hpl]
        have hplm : pl ∈ wrapPieces w llast := mem_of_getLast?_eq hpl
        have hplne := wrapPieces_nonblank w hw llast hlword pl hplm
        simp [hplne]
    have hre : rustLines (wrap_text text w) = P := by
      rw [hout]
      exact rustLines_joinSep P hPne (fun p hp => (hPfacts p hp).1)
        (fun p hp hg => (hPfacts p hp).2.1 (mem_of_getLast?_eq hg))
        hPlast
    rw [show wrap_text (wrap_text text w) w =
        joinSep ['\n'] ((rustLines (wrap_text text w)).map (wrapLine w)) from rfl, hre]
    have hmap : P.map (wrapLine w) = P := by
      calc P.map (wrapLine w) = P.map id :=
            List.map_congr_left (fun p hp => (hPfacts p hp).2.2)
        _ = P := List.map_id P
    rw [hmap, hout]

/-- C8 counterexample: at width 5 (≥ 1) the text `a\n\n` wraps to `a\n`,
which re-wraps to `a` — the trailing blank line's newline is lost on the
second pass, so the wrapper is not idempotent as claimed. -/
theorem wrap_text_idempotent_cx :
    wrap_text (wrap_text ("a\n\n".toList) 5) 5 ≠ wrap_text ("a\n\n".toList) 5 ∧
    wrap_text ("a\n\n".toList) 5 = "a\n".toList ∧
    wrap_text (wrap_text ("a\n\n".toList) 5) 5 = "a".toList :=
  ⟨by decide, by decide, by decide⟩

/-- Witness for C8 (amended) at a text that actually gets re-wrapped. -/
theorem wrap_text_idempotent_witness :
    wrap_text (wrap_text ("this is a long line\nshort".toList) 7) 7 =
      wrap_text ("this is a long line\nshort".toList) 7 :=
  wrap_text_idempotent ("this is a long line\nshort".toList) 7 (by decide)
    (by decide) (by decide)

end CaptainsLog
